import Mathlib

/-!
Shallow embedding of the wordle solver (`src/lib.rs`, `src/algorithms/vecrem.rs`).

Words are lists of characters; the source validates length 5 by assertion at
entry to `Correctness::compute` and `Guess::matches`, so theorems carry the
length hypotheses the callers guarantee instead of threading an error path.
-/

/-- The per-letter feedback outcome (`enum Correctness` in `lib.rs`). -/
inductive Correctness where
  | Correct
  | Misplaced
  | Wrong
deriving DecidableEq, Repr

open Correctness

/-- Pass 1 of `Correctness::compute`: mark exact matches `Correct`, the rest
start out `Wrong` (the `c` array is initialised to all `Wrong`). -/
def pass1 (answer guess : List Char) : List Correctness :=
  List.zipWith (fun a g => if a = g then Correct else Wrong) answer guess

/-- The `used` array after the loop that marks every `Correct` position
consumed (`used[i] = true` iff `c[i] == Correctness::Correct`). -/
def used0 (mask : List Correctness) : List Bool :=
  mask.map (fun c => decide (c = Correct))

/-- The inner scan of pass 2 of `Correctness::compute`: find the first
answer position `j` with `answer[j] == g && !used[j]`, mark it consumed.
Returns `none` when no such position exists. -/
def consume (g : Char) : List Char → List Bool → Option (List Bool)
  | [], _ => none
  | _ :: _, [] => none
  | a :: restA, u :: restU =>
    if a = g ∧ u = false then some (true :: restU)
    else (consume g restA restU).map (fun us => u :: us)

/-- Pass 2 of `Correctness::compute`: walk the guess positions (paired with
the pass-1 mask), keep `Correct` positions, and try to consume an unused
answer occurrence for each remaining position (`Misplaced` on success,
`Wrong` otherwise). -/
def pass2 : List (Char × Correctness) → List Char → List Bool → List Correctness
  | [], _, _ => []
  | (g, c) :: rest, answer, used =>
    if c = Correct then Correct :: pass2 rest answer used
    else
      match consume g answer used with
      | some used2 => Misplaced :: pass2 rest answer used2
      | none => Wrong :: pass2 rest answer used

/-- `Correctness::compute(answer, guess)` from `lib.rs`. -/
def compute (answer guess : List Char) : List Correctness :=
  let c := pass1 answer guess
  pass2 (guess.zip c) answer (used0 c)

/-- A history record: the guessed word together with the mask it received
(`struct Guess` in `lib.rs`). -/
structure Guess where
  word : List Char
  mask : List Correctness
deriving DecidableEq, Repr

/-- The first loop of `Guess::matches`: every position whose mask is
`Correct` must agree between the prior guess and the candidate (else the
function returns `false` at once); such positions are marked used.
`none` models the early `return false`. -/
def checkCorrect : List (Char × Correctness) → List Char → Option (List Bool)
  | [], _ => some []
  | _ :: _, [] => none
  | (g, m) :: rest, w :: ws =>
    if m = Correct then
      if g ≠ w then none
      else (checkCorrect rest ws).map (fun us => true :: us)
    else (checkCorrect rest ws).map (fun us => false :: us)

/-- The inner `.any` closure scan of `Guess::matches`, looking for support
for candidate letter `wi` (at candidate position `i`) among the prior
guess's positions `j`. Returns `(found, used, plausible)`.  The `Correct`
arm is unreachable in the source (it panics): every `Correct` position is
already marked used before this scan runs, so the `u` test short-circuits
first; it is embedded as a skip. -/
def scanSupport (wi : Char) (i : Nat) : Nat → List (Char × Correctness) → List Bool →
    Bool → Bool × List Bool × Bool
  | _, [], used, pl => (false, used, pl)
  | _, _ :: _, [], pl => (false, [], pl)
  | j, (g, m) :: rest, u :: us, pl =>
    if g ≠ wi then
      let r := scanSupport wi i (j + 1) rest us pl
      (r.1, u :: r.2.1, r.2.2)
    else if u then
      let r := scanSupport wi i (j + 1) rest us pl
      (r.1, u :: r.2.1, r.2.2)
    else
      match m with
      | Correct =>
        let r := scanSupport wi i (j + 1) rest us pl
        (r.1, u :: r.2.1, r.2.2)
      | Misplaced =>
        if j = i then
          let r := scanSupport wi i (j + 1) rest us false
          (r.1, u :: r.2.1, r.2.2)
        else (true, true :: us, pl)
      | Wrong =>
        let r := scanSupport wi i (j + 1) rest us false
        (r.1, u :: r.2.1, r.2.2)

/-- The second loop of `Guess::matches` over the candidate's positions
(paired with the mask), threading the `used` array.  When support is found
and the letter stayed plausible the consumption is kept; when the letter
became implausible the function returns `false`; otherwise nothing is
known about the letter and the scan's mutations are irrelevant (the source
only mutates `used` at the position where `.any` short-circuits). -/
def matchesGo : Nat → List (Char × Correctness) → List (Char × Correctness) →
    List Bool → Bool
  | _, [], _, _ => true
  | i, (w, m) :: rest, gm, used =>
    if m = Correct then matchesGo (i + 1) rest gm used
    else
      let r := scanSupport w i 0 gm used true
      if r.1 && r.2.2 then matchesGo (i + 1) rest gm r.2.1
      else if !r.2.2 then false
      else matchesGo (i + 1) rest gm used

/-- `Guess::matches(&self, word)` from `lib.rs`: can `word` still be the
answer given that guessing `self.word` produced `self.mask`? -/
def Guess.matches (g : Guess) (word : List Char) : Bool :=
  match checkCorrect (g.word.zip g.mask) word with
  | none => false
  | some used => matchesGo 0 (word.zip g.mask) (g.word.zip g.mask) used

/-- The round loop of `Wordle::play` (`lib.rs`): ask the guesser, return the
round number on a match, abort (`assert!`, modelled as `.error ()`) when the
guess is absent from the dictionary, otherwise record the feedback and
continue.  `fuel` counts the rounds left out of 32. -/
def playGo (dict : List (List Char)) (answer : List Char)
    (guesser : List Guess → List Char) : Nat → Nat → List Guess → Except Unit (Option Nat)
  | 0, _, _ => .ok none
  | fuel + 1, round, hist =>
    let guess := guesser hist
    if guess = answer then .ok (some round)
    else if guess ∈ dict then
      playGo dict answer guesser fuel (round + 1)
        (hist ++ [⟨guess, compute answer guess⟩])
    else .error ()

/-- `Wordle::play(answer, guesser)`: rounds `1..=32` starting from an empty
history.  `.ok (some k)` models `Some(k)`, `.ok none` models `None`
(exhausted), `.error ()` models the `assert!` panic. -/
def play (dict : List (List Char)) (answer : List Char)
    (guesser : List Guess → List Char) : Except Unit (Option Nat) :=
  playGo dict answer guesser 32 1 []

/-- The history a guesser sees at the start of round `r` (rounds count from
1), assuming no earlier round matched or aborted: each earlier round
appended its guess together with `Correctness::compute` feedback. -/
def historyAt (answer : List Char) (guesser : List Guess → List Char) : Nat → List Guess
  | 0 => []
  | 1 => []
  | r + 2 =>
    let h := historyAt answer guesser (r + 1)
    h ++ [⟨guesser h, compute answer (guesser h)⟩]

/-- The word the guesser returns in round `r` (assuming no earlier match). -/
def guessAt (answer : List Char) (guesser : List Guess → List Char) (r : Nat) : List Char :=
  guesser (historyAt answer guesser r)

/-- The fixed opening word returned by `VecRem::guess` on an empty history. -/
def tares : List Char := ['t','a','r','e','s']

/-- The `retain` at the top of `VecRem::guess`: when a history record
exists, keep only the remaining candidates consistent with the most recent
one (`history.last()`); with an empty history the set is untouched. -/
def filterRemaining (history : List Guess) (remaining : List (List Char × Nat)) :
    List (List Char × Nat) :=
  match history.getLast? with
  | some last => remaining.filter (fun p => last.matches p.1)
  | none => remaining

/-- `Correctness::patterns()`: all 3^5 = 243 masks, in `iproduct!` order
(first coordinate slowest). -/
def allPatterns : List (List Correctness) :=
  [Correct, Misplaced, Wrong].flatMap fun a =>
  [Correct, Misplaced, Wrong].flatMap fun b =>
  [Correct, Misplaced, Wrong].flatMap fun c =>
  [Correct, Misplaced, Wrong].flatMap fun d =>
  [Correct, Misplaced, Wrong].map fun e => [a, b, c, d, e]

/-- The `in_pattern_total` accumulation in `VecRem::guess`: total weight of
remaining candidates consistent with guessing `w` and receiving mask `m`. -/
def bucketWeight (remaining : List (List Char × Nat)) (w : List Char)
    (m : List Correctness) : Nat :=
  (remaining.map (fun c => if Guess.matches ⟨w, m⟩ c.1 then c.2 else 0)).sum

/-- The `goodness` score of a candidate guess `w` in `VecRem::guess`:
`-Σ p(m)·log2(p(m))` over the patterns with nonzero bucket weight, with
`p(m) = bucketWeight / total`.  The source's `f64` arithmetic is idealised
as real arithmetic. -/
noncomputable def goodness (remaining : List (List Char × Nat)) (total : Nat)
    (w : List Char) : ℝ :=
  -((allPatterns.map (fun m =>
      let wt := bucketWeight remaining w m
      if wt = 0 then (0 : ℝ)
      else ((wt : ℝ) / (total : ℝ)) * Real.logb 2 ((wt : ℝ) / (total : ℝ)))).sum)

/-- The `best` selection loop of `VecRem::guess`: scan the candidates in
order, replacing the current best only on a strictly greater score. -/
noncomputable def selectLoop (score : List Char → ℝ) :
    List (List Char × Nat) → Option (List Char × ℝ) → Option (List Char × ℝ)
  | [], best => best
  | (w, _) :: rest, best =>
    match best with
    | some c =>
      if score w > c.2 then selectLoop score rest (some (w, score w))
      else selectLoop score rest (some c)
    | none => selectLoop score rest (some (w, score w))

/-- `VecRem::guess(history)`: filter the remaining set against the latest
record, short-circuit to `tares` on an empty history, otherwise return the
entropy-maximal candidate.  The returned pair also exposes the updated
`remaining` field (the source mutates `self`); `none` models the
`best.unwrap()` panic. -/
noncomputable def vecremGuess (remaining : List (List Char × Nat))
    (history : List Guess) : Option (List Char × List (List Char × Nat)) :=
  let rem := filterRemaining history remaining
  if history.isEmpty then some (tares, rem)
  else
    let total : Nat := (rem.map Prod.snd).sum
    (selectLoop (goodness rem total) rem none).map (fun c => (c.1, rem))

/-- Number of positions where the guess holds letter `ℓ` and the mask marks
`Correct` or `Misplaced` (the claimed-letter budget of the mask). -/
def countCM (guess : List Char) (mask : List Correctness) (ℓ : Char) : Nat :=
  (guess.zip mask).countP fun p =>
    decide (p.1 = ℓ ∧ (p.2 = Correct ∨ p.2 = Misplaced))

/-- Number of answer positions holding letter `ℓ` that are still unconsumed
in the `used` array. -/
def countUnused (answer : List Char) (used : List Bool) (ℓ : Char) : Nat :=
  (answer.zip used).countP fun p => decide (p.1 = ℓ ∧ p.2 = false)

example : compute ['a','b','c','d','e'] ['a','b','c','d','e'] =
    [Correct, Correct, Correct, Correct, Correct] := by decide
example : compute ['a','b','c','d','e'] ['f','g','h','i','j'] =
    [Wrong, Wrong, Wrong, Wrong, Wrong] := by decide
example : compute ['a','b','c','d','e'] ['b','c','d','e','a'] =
    [Misplaced, Misplaced, Misplaced, Misplaced, Misplaced] := by decide
example : compute ['a','a','b','b','b'] ['c','a','a','c','c'] =
    [Wrong, Correct, Misplaced, Wrong, Wrong] := by decide
example : compute ['b','a','c','c','c'] ['a','a','d','d','d'] =
    [Wrong, Correct, Wrong, Wrong, Wrong] := by decide
example : compute ['a','b','c','d','e'] ['a','a','c','d','e'] =
    [Correct, Wrong, Correct, Correct, Correct] := by decide

example : Guess.matches ⟨['a','b','c','d','e'],
    [Correct, Correct, Correct, Correct, Correct]⟩ ['a','b','c','d','e'] = true := by decide
example : Guess.matches ⟨['a','b','c','d','f'],
    [Correct, Correct, Correct, Correct, Correct]⟩ ['a','b','c','d','e'] = false := by decide
example : Guess.matches ⟨['a','b','c','d','e'],
    [Wrong, Wrong, Wrong, Wrong, Wrong]⟩ ['f','g','h','i','j'] = true := by decide
example : Guess.matches ⟨['a','b','c','d','e'],
    [Misplaced, Misplaced, Misplaced, Misplaced, Misplaced]⟩ ['e','a','b','c','d'] = true := by decide
example : Guess.matches ⟨['a','a','a','b','b'],
    [Correct, Misplaced, Wrong, Wrong, Wrong]⟩ ['a','c','c','a','a'] = false := by decide
example : Guess.matches ⟨['b','a','a','a','a'],
    [Wrong, Correct, Misplaced, Wrong, Wrong]⟩ ['a','a','c','c','c'] = true := by decide
example : Guess.matches ⟨['b','a','a','a','a'],
    [Wrong, Correct, Misplaced, Wrong, Wrong]⟩ ['c','a','a','c','c'] = false := by decide
example : Guess.matches ⟨['a','b','c','d','e'],
    [Wrong, Wrong, Wrong, Wrong, Wrong]⟩ ['b','c','d','e','a'] = false := by decide

/-! ## General lemmas about `compute` -/

lemma pass1_self (w : List Char) : pass1 w w = w.map fun _ => Correct := by
  induction w with
  | nil => rfl
  | cons a as _ => simp [pass1]

lemma pass2_all_correct :
    ∀ (l : List (Char × Correctness)) (ans : List Char) (used : List Bool),
      (∀ p ∈ l, p.2 = Correct) → pass2 l ans used = l.map fun _ => Correct := by
  intro l
  induction l with
  | nil => intro ans used _; rfl
  | cons p rest ih =>
    intro ans used h
    obtain ⟨g, c⟩ := p
    have hc : c = Correct := h (g, c) (List.mem_cons_self _ _)
    simp [pass2, hc, ih ans used fun q hq => h q (List.mem_cons_of_mem _ hq)]

lemma compute_self (w : List Char) :
    compute w w = List.replicate w.length Correct := by
  have hall : ∀ p ∈ w.zip (pass1 w w), (p : Char × Correctness).2 = Correct := by
    intro p hp
    have := (List.of_mem_zip hp).2
    rw [pass1_self] at this
    obtain ⟨a, _, ha⟩ := List.mem_map.mp this
    exact ha.symm
  have hlen : (w.zip (pass1 w w)).length = w.length := by
    simp [pass1, List.length_zip]
  calc compute w w = (w.zip (pass1 w w)).map fun _ => Correct :=
        pass2_all_correct _ _ _ hall
    _ = List.replicate w.length Correct := by
        rw [List.map_const', hlen]

lemma checkCorrect_self :
    ∀ w : List Char,
      checkCorrect (w.zip (List.replicate w.length Correct)) w =
        some (List.replicate w.length true) := by
  intro w
  induction w with
  | nil => rfl
  | cons a as ih => simpa [checkCorrect, List.replicate, List.zip] using ih

lemma matchesGo_all_correct :
    ∀ (l : List (Char × Correctness)) (i : Nat) (gm : List (Char × Correctness))
      (used : List Bool), (∀ p ∈ l, p.2 = Correct) → matchesGo i l gm used = true := by
  intro l
  induction l with
  | nil => intro i gm used _; rfl
  | cons p rest ih =>
    intro i gm used h
    obtain ⟨w, m⟩ := p
    have hm : m = Correct := h (w, m) (List.mem_cons_self _ _)
    simp [matchesGo, hm, ih (i + 1) gm used fun q hq => h q (List.mem_cons_of_mem _ hq)]

/-! ## Claim theorems: feedback computation -/

/-- C2: the two-pass consume-on-first-match rule gives the spec's
duplicate-letter feedback values (`Wrong` is the code's name for Absent):
`compute "aabbb" "aaccc"`, `compute "aabbb" "ccaac"`, and
`compute "azzaz" "aaabb"`. -/
theorem compute_duplicate_letter_cases :
    compute ['a','a','b','b','b'] ['a','a','c','c','c'] =
      [Correct, Correct, Wrong, Wrong, Wrong] ∧
    compute ['a','a','b','b','b'] ['c','c','a','a','c'] =
      [Wrong, Wrong, Misplaced, Misplaced, Wrong] ∧
    compute ['a','z','z','a','z'] ['a','a','a','b','b'] =
      [Correct, Misplaced, Wrong, Wrong, Wrong] := by
  exact ⟨by decide, by decide, by decide⟩

/-- C1: the optimized consistency check does not agree with direct
recomputation.  For the prior guess "abcde" with mask
`[Misplaced, Wrong, Wrong, Wrong, Wrong]` — a mask real play produces,
e.g. against the answer "fahij" — the candidate "fghij" is accepted by
`Guess.matches` even though recomputing the feedback yields the all-`Wrong`
mask, so the specified equivalence requires rejection: `matches` never
checks that a `Misplaced` letter occurs in the candidate at all. -/
theorem matches_compute_equivalence_fails :
    Guess.matches ⟨['a','b','c','d','e'], [Misplaced, Wrong, Wrong, Wrong, Wrong]⟩
        ['f','g','h','i','j'] = true ∧
    compute ['f','g','h','i','j'] ['a','b','c','d','e'] =
        [Wrong, Wrong, Wrong, Wrong, Wrong] ∧
    ¬ compute ['f','g','h','i','j'] ['a','b','c','d','e'] =
        [Misplaced, Wrong, Wrong, Wrong, Wrong] ∧
    compute ['f','a','h','i','j'] ['a','b','c','d','e'] =
        [Misplaced, Wrong, Wrong, Wrong, Wrong] := by
  exact ⟨by decide, by decide, by decide, by decide⟩

/-- C7: feeding a word to the feedback computation against itself yields
the all-`Correct` mask, and the consistency check accepts the word against
that record (self-consistency round-trip). -/
theorem compute_matches_self (w : List Char) (h5 : w.length = 5) :
    compute w w = List.replicate 5 Correct ∧
    Guess.matches ⟨w, List.replicate 5 Correct⟩ w = true := by
  constructor
  · rw [compute_self, h5]
  · have hrep : List.replicate 5 Correct = List.replicate w.length Correct := by rw [h5]
    rw [Guess.matches, hrep]
    rw [checkCorrect_self w]
    apply matchesGo_all_correct
    intro p hp
    have := (List.of_mem_zip hp).2
    exact List.eq_of_mem_replicate this

/-- C7 witness: the round-trip at the concrete word "abcde". -/
theorem compute_matches_self_witness :
    compute ['a','b','c','d','e'] ['a','b','c','d','e'] = List.replicate 5 Correct ∧
    Guess.matches ⟨['a','b','c','d','e'], List.replicate 5 Correct⟩
      ['a','b','c','d','e'] = true :=
  compute_matches_self ['a','b','c','d','e'] (by decide)

/-! ## Claim theorems: candidate filtering -/

/-- C6: each `VecRem::guess` call filters the remaining set against the
most recent history record only: the result is a sublist (subsequence) of
the previous set, never longer, unchanged on an empty history, and every
survivor matches the last record. -/
theorem filterRemaining_narrows (history : List Guess)
    (remaining : List (List Char × Nat)) :
    (filterRemaining history remaining).Sublist remaining ∧
    (filterRemaining history remaining).length ≤ remaining.length ∧
    (history = [] → filterRemaining history remaining = remaining) ∧
    ∀ last, history.getLast? = some last →
      ∀ p ∈ filterRemaining history remaining, last.matches p.1 = true := by
  unfold filterRemaining
  cases h : history.getLast? with
  | none =>
    refine ⟨List.Sublist.refl _, le_refl _, fun _ => rfl, ?_⟩
    intro last hlast
    exact Option.noConfusion hlast
  | some last0 =>
    refine ⟨List.filter_sublist _, List.length_filter_le _ _, ?_, ?_⟩
    · intro hnil
      subst hnil
      simp at h
    · intro last hlast p hp
      injection hlast with h2
      subst h2
      exact (List.mem_filter.mp hp).2

/-- C6 witness: filtering a concrete two-word set against a concrete
record keeps exactly the consistent word. -/
theorem filterRemaining_narrows_witness :
    (filterRemaining [⟨['a','b','c','d','e'], List.replicate 5 Correct⟩]
        [(['a','b','c','d','e'], 1), (['f','g','h','i','j'], 2)]).Sublist
      [(['a','b','c','d','e'], 1), (['f','g','h','i','j'], 2)] ∧
    ∀ p ∈ filterRemaining [⟨['a','b','c','d','e'], List.replicate 5 Correct⟩]
        [(['a','b','c','d','e'], 1), (['f','g','h','i','j'], 2)],
      (Guess.mk ['a','b','c','d','e'] (List.replicate 5 Correct)).matches p.1 = true := by
  refine ⟨(filterRemaining_narrows _ _).1, ?_⟩
  exact (filterRemaining_narrows _ _).2.2.2 _ rfl

/-- C8: with an empty history `VecRem::guess` short-circuits to the fixed
opening word "tares", leaving the remaining set untouched, for every
internal state. -/
theorem vecrem_empty_history_tares (remaining : List (List Char × Nat)) :
    vecremGuess remaining [] = some (tares, remaining) := by
  simp [vecremGuess, filterRemaining]

/-! ## Game loop lemmas -/

lemma historyAt_succ (answer : List Char) (guesser : List Guess → List Char)
    (round : Nat) (h1 : 1 ≤ round) :
    historyAt answer guesser (round + 1) =
      historyAt answer guesser round ++
        [⟨guessAt answer guesser round, compute answer (guessAt answer guesser round)⟩] := by
  obtain ⟨r, rfl⟩ : ∃ r, round = r + 1 := ⟨round - 1, by omega⟩
  rfl

lemma playGo_some_iff (dict : List (List Char)) (answer : List Char)
    (guesser : List Guess → List Char)
    (hd : ∀ h : List Guess, guesser h ∈ dict) :
    ∀ (fuel round : Nat), 1 ≤ round → fuel + round = 33 →
      ∀ k, (playGo dict answer guesser fuel round (historyAt answer guesser round)
          = .ok (some k)
        ↔ round ≤ k ∧ k ≤ 32 ∧ guessAt answer guesser k = answer ∧
            ∀ r, round ≤ r → r < k → guessAt answer guesser r ≠ answer) := by
  intro fuel
  induction fuel with
  | zero =>
    intro round h1 h33 k
    constructor
    · intro h
      exact absurd h (by simp [playGo])
    · rintro ⟨hrk, hk32, -, -⟩
      omega
  | succ n ih =>
    intro round h1 h33 k
    by_cases heq : guessAt answer guesser round = answer
    · have hstep : playGo dict answer guesser (n + 1) round
          (historyAt answer guesser round) = .ok (some round) := by
        simp [playGo, guessAt] at heq ⊢
        simp [heq]
      rw [hstep]
      constructor
      · intro h
        have hk : round = k := by
          injection h with h2
          injection h2
        subst hk
        exact ⟨le_refl _, by omega, heq, fun r hr1 hr2 => by omega⟩
      · rintro ⟨hrk, hk32, hk, hall⟩
        rcases Nat.eq_or_lt_of_le hrk with h | h
        · rw [h]
        · exact absurd heq (hall round (le_refl _) h)
    · have hstep : playGo dict answer guesser (n + 1) round
          (historyAt answer guesser round) =
          playGo dict answer guesser n (round + 1)
            (historyAt answer guesser (round + 1)) := by
      
        have hmem := hd (historyAt answer guesser round)
        rw [historyAt_succ answer guesser round h1]
        simp only [playGo]
        simp [guessAt] at heq
        simp [heq, hmem, guessAt]
      rw [hstep, ih (round + 1) (by omega) (by omega) k]
      constructor
      · rintro ⟨hrk, hk32, hk, hall⟩
        exact ⟨by omega, hk32, hk, fun r hr1 hr2 => by
          rcases Nat.eq_or_lt_of_le hr1 with h | h
          · subst h; exact heq
          · exact hall r (by omega) hr2⟩
      · rintro ⟨hrk, hk32, hk, hall⟩
        have hne : round ≠ k := by
          intro hr
          subst hr
          exact heq hk
        exact ⟨by omega, hk32, hk, fun r hr1 hr2 => hall r (by omega) hr2⟩

lemma playGo_none_iff (dict : List (List Char)) (answer : List Char)
    (guesser : List Guess → List Char)
    (hd : ∀ h : List Guess, guesser h ∈ dict) :
    ∀ (fuel round : Nat), 1 ≤ round → fuel + round = 33 →
      (playGo dict answer guesser fuel round (historyAt answer guesser round)
          = .ok none
        ↔ ∀ r, round ≤ r → r ≤ 32 → guessAt answer guesser r ≠ answer) := by
  intro fuel
  induction fuel with
  | zero =>
    intro round h1 h33
    simp only [playGo]
    constructor
    · intro _ r hr1 hr2
      omega
    · intro _
      trivial
  | succ n ih =>
    intro round h1 h33
    by_cases heq : guessAt answer guesser round = answer
    · have hstep : playGo dict answer guesser (n + 1) round
          (historyAt answer guesser round) = .ok (some round) := by
        simp [playGo, guessAt] at heq ⊢
        simp [heq]
      rw [hstep]
      constructor
      · intro h
        exact absurd h (by simp)
      · intro hall
        exact absurd heq (hall round (le_refl _) (by omega))
    · have hstep : playGo dict answer guesser (n + 1) round
          (historyAt answer guesser round) =
          playGo dict answer guesser n (round + 1)
            (historyAt answer guesser (round + 1)) := by
        have hmem := hd (historyAt answer guesser round)
        rw [historyAt_succ answer guesser round h1]
        simp only [playGo]
        simp [guessAt] at heq
        simp [heq, hmem, guessAt]
      rw [hstep, ih (round + 1) (by omega) (by omega)]
      constructor
      · intro hall r hr1 hr2
        rcases Nat.eq_or_lt_of_le hr1 with h | h
        · subst h; exact heq
        · exact hall r (by omega) hr2
      · intro hall r hr1 hr2
        exact hall r (by omega) hr2

/-! ## Claim theorems: game loop -/

/-- C3: for a guesser whose guesses are always lexicon members (the
contract the spec imposes on strategies), `Wordle::play` returns
`Some k` exactly when round `k` (with `1 ≤ k ≤ 32`) is the first round
whose guess equals the answer, and `None` exactly when no guess equals the
answer within 32 rounds. -/
theorem play_rounds_characterization (dict : List (List Char))
    (answer : List Char) (guesser : List Guess → List Char)
    (hd : ∀ h : List Guess, guesser h ∈ dict) :
    (∀ k, play dict answer guesser = .ok (some k) ↔
      1 ≤ k ∧ k ≤ 32 ∧ guessAt answer guesser k = answer ∧
        ∀ r, 1 ≤ r → r < k → guessAt answer guesser r ≠ answer) ∧
    (play dict answer guesser = .ok none ↔
      ∀ r, 1 ≤ r → r ≤ 32 → guessAt answer guesser r ≠ answer) := by
  constructor
  · intro k
    have h := playGo_some_iff dict answer guesser hd 32 1 (by omega) (by omega) k
    simpa [play, historyAt] using h
  · have h := playGo_none_iff dict answer guesser hd 32 1 (by omega) (by omega)
    simpa [play, historyAt] using h

/-- C3 witness: the strategy guessing "right" exactly on round 3 (and the
lexicon word "wrong" otherwise) against answer "right" wins in round 3, and
the strategy always guessing "wrong" is exhausted (`None`). -/
theorem play_rounds_characterization_witness :
    play [['w','r','o','n','g'], ['r','i','g','h','t']] ['r','i','g','h','t']
      (fun h => if h.length = 2 then ['r','i','g','h','t'] else ['w','r','o','n','g'])
      = .ok (some 3) ∧
    play [['w','r','o','n','g'], ['r','i','g','h','t']] ['r','i','g','h','t']
      (fun _ => ['w','r','o','n','g']) = .ok none := by
  constructor
  · exact ((play_rounds_characterization _ _ _
      (fun h => by by_cases hl : h.length = 2 <;> simp [hl])).1 3).mpr
      ⟨by omega, by omega, by decide, by
        intro r h1 h3
        interval_cases r <;> decide⟩
  · exact (play_rounds_characterization _ _ _
      (fun h => by simp)).2.mpr
      (fun r _ _ => by simp [guessAt])

/-- C4 counterexample: a guess equal to the true answer is never validated
against the lexicon.  With an empty lexicon, a strategy guessing the answer
itself is reported as a win in round 1 — the game does not abort — although
the guess is absent from the lexicon. -/
theorem play_skips_validation_on_answer :
    play [] ['a','b','c','d','e'] (fun _ => ['a','b','c','d','e']) = .ok (some 1) ∧
    ['a','b','c','d','e'] ∉ ([] : List (List Char)) := by
  exact ⟨rfl, by simp⟩

/-- C4 amended: on every round, a guess that differs from the answer is
validated to be a lexicon member, and such a guess absent from the lexicon
aborts the game at that round; a guess equal to the answer is however
returned as a win without any lexicon validation. -/
theorem play_validates_nonanswer_guesses (dict : List (List Char))
    (answer : List Char) (guesser : List Guess → List Char)
    (fuel round : Nat) (hist : List Guess) :
    (guesser hist ≠ answer → guesser hist ∉ dict →
      playGo dict answer guesser (fuel + 1) round hist = .error ()) ∧
    (guesser hist = answer →
      playGo dict answer guesser (fuel + 1) round hist = .ok (some round)) := by
  constructor
  · intro hne hnd
    simp [playGo, hne, hnd]
  · intro he
    simp [playGo, he]

/-- C4 amended witness: a non-lexicon, non-answer guess aborts round 1. -/
theorem play_validates_nonanswer_guesses_witness :
    playGo [] ['r','i','g','h','t'] (fun _ => ['w','r','o','n','g']) 32 1 [] = .error () :=
  (play_validates_nonanswer_guesses [] ['r','i','g','h','t']
    (fun _ => ['w','r','o','n','g']) 31 1 []).1 (by decide) (by simp)

/-! ## Selection loop lemmas -/

lemma selectLoop_cons_none (score : List Char → ℝ) (w2 : List Char) (n : Nat)
    (rest : List (List Char × Nat)) :
    selectLoop score ((w2, n) :: rest) none =
      selectLoop score rest (some (w2, score w2)) := rfl

lemma selectLoop_cons_some (score : List Char → ℝ) (w2 : List Char) (n : Nat)
    (rest : List (List Char × Nat)) (b : List Char × ℝ) :
    selectLoop score ((w2, n) :: rest) (some b) =
      if score w2 > b.2 then selectLoop score rest (some (w2, score w2))
      else selectLoop score rest (some b) := rfl

lemma selectLoop_some_of_best (score : List Char → ℝ) :
    ∀ (l : List (List Char × Nat)) (b : List Char × ℝ),
      ∃ c, selectLoop score l (some b) = some c := by
  intro l
  induction l with
  | nil => intro b; exact ⟨b, rfl⟩
  | cons p rest ih =>
    intro b
    obtain ⟨w2, n⟩ := p
    rw [selectLoop_cons_some]
    by_cases hgt : score w2 > b.2
    · rw [if_pos hgt]; exact ih _
    · rw [if_neg hgt]; exact ih _

lemma selectLoop_mem (score : List Char → ℝ) :
    ∀ (l : List (List Char × Nat)) (best : Option (List Char × ℝ))
      (c : List Char × ℝ), selectLoop score l best = some c →
      c.1 ∈ l.map Prod.fst ∨ best = some c := by
  intro l
  induction l with
  | nil => intro best c h; right; exact h
  | cons p rest ih =>
    intro best c h
    obtain ⟨w2, n⟩ := p
    match best with
    | none =>
      rw [selectLoop_cons_none] at h
      rcases ih _ c h with hm | hb
      · exact Or.inl (List.mem_cons_of_mem _ hm)
      · left
        injection hb with hb2
        rw [← hb2]
        exact List.mem_cons_self _ _
    | some b =>
      rw [selectLoop_cons_some] at h
      by_cases hgt : score w2 > b.2
      · rw [if_pos hgt] at h
        rcases ih _ c h with hm | hb
        · exact Or.inl (List.mem_cons_of_mem _ hm)
        · left
          injection hb with hb2
          rw [← hb2]
          exact List.mem_cons_self _ _
      · rw [if_neg hgt] at h
        rcases ih _ c h with hm | hb
        · exact Or.inl (List.mem_cons_of_mem _ hm)
        · exact Or.inr hb

lemma selectLoop_first_max (score : List Char → ℝ) :
    ∀ (l : List (List Char × Nat)) (b : List Char),
      ∃ w l₁ l₂, selectLoop score l (some (b, score b)) = some (w, score w) ∧
        b :: l.map Prod.fst = l₁ ++ w :: l₂ ∧
        (∀ v ∈ l₁, score v < score w) ∧
        (∀ v ∈ l₂, score v ≤ score w) := by
  intro l
  induction l with
  | nil =>
    intro b
    exact ⟨b, [], [], rfl, rfl, by simp, by simp⟩
  | cons p rest ih =>
    intro b
    obtain ⟨w2, n⟩ := p
    rw [show selectLoop score ((w2, n) :: rest) (some (b, score b)) =
      if score w2 > score b then selectLoop score rest (some (w2, score w2))
      else selectLoop score rest (some (b, score b)) from rfl]
    by_cases hgt : score w2 > score b
    · rw [if_pos hgt]
      obtain ⟨w, l₁, l₂, hsel, hdec, hlt, hle⟩ := ih w2
      have hw2w : score w2 ≤ score w := by
        cases l₁ with
        | nil =>
          have : w2 = w := by
            have := congrArg (fun t => List.head? t) hdec
            simpa using this
          rw [this]
        | cons x l₁t =>
          have hx : x = w2 := by
            have := congrArg (fun t => List.head? t) hdec
            simpa using this.symm
          have hxw : score x < score w := hlt x (List.mem_cons_self _ _)
          rw [hx] at hxw
          exact le_of_lt hxw
      refine ⟨w, b :: l₁, l₂, hsel, ?_, ?_, hle⟩
      · simpa using congrArg (fun t => b :: t) hdec
      · intro v hv
        rcases List.mem_cons.mp hv with hv | hv
        · rw [hv]; exact lt_of_lt_of_le hgt hw2w
        · exact hlt v hv
    · rw [if_neg hgt]
      have hble : score w2 ≤ score b := le_of_not_lt hgt
      obtain ⟨w, l₁, l₂, hsel, hdec, hlt, hle⟩ := ih b
      cases l₁ with
      | nil =>
        have hbw : b = w := by
          have := congrArg (fun t => List.head? t) hdec
          simpa using this
        have htail : rest.map Prod.fst = l₂ := by
          have := congrArg (fun t => List.tail t) hdec
          simpa using this
        refine ⟨w, [], w2 :: l₂, hsel, ?_, by simp, ?_⟩
        · simp [← hbw, ← htail]
        · intro v hv
          rcases List.mem_cons.mp hv with hv | hv
          · rw [hv, ← hbw]; exact hble
          · exact hle v hv
      | cons x l₁t =>
        have hx : x = b := by
          have := congrArg (fun t => List.head? t) hdec
          simpa using this.symm
        have htail : rest.map Prod.fst = l₁t ++ w :: l₂ := by
          have := congrArg (fun t => List.tail t) hdec
          simpa using this
        have hblt : score b < score w := by
          have := hlt x (List.mem_cons_self _ _)
          rwa [hx] at this
        refine ⟨w, b :: w2 :: l₁t, l₂, hsel, ?_, ?_, hle⟩
        · simp [htail]
        · intro v hv
          rcases List.mem_cons.mp hv with hv | hv
          · rw [hv]; exact hblt
          · rcases List.mem_cons.mp hv with hv | hv
            · rw [hv]; exact lt_of_le_of_lt hble hblt
            · exact hlt v (List.mem_cons_of_mem _ hv)

lemma vecremGuess_of_ne_nil (remaining : List (List Char × Nat))
    (history : List Guess) (hne : history ≠ []) :
    vecremGuess remaining history =
      (selectLoop
          (goodness (filterRemaining history remaining)
            ((filterRemaining history remaining).map Prod.snd).sum)
          (filterRemaining history remaining) none).map
        (fun c => (c.1, filterRemaining history remaining)) := by
  have hie : history.isEmpty = false := by
    cases history with
    | nil => exact absurd rfl hne
    | cons a l => rfl
  simp only [vecremGuess, hie, Bool.false_eq_true, if_false]

/-! ## Claim theorems: entropy selection -/

/-- C9: with a non-empty history and at least one candidate surviving the
filter, `VecRem::guess` does not panic (the `best.unwrap()` receives
`Some`) and the returned word is drawn from the filtered remaining set. -/
theorem vecrem_guess_no_panic_mem (remaining : List (List Char × Nat))
    (history : List Guess) (hne : history ≠ [])
    (hrem : filterRemaining history remaining ≠ []) :
    ∃ w, vecremGuess remaining history =
        some (w, filterRemaining history remaining) ∧
      w ∈ (filterRemaining history remaining).map Prod.fst := by
  cases hr : filterRemaining history remaining with
  | nil => exact absurd hr hrem
  | cons p rest =>
    obtain ⟨w2, n⟩ := p
    rw [vecremGuess_of_ne_nil remaining history hne, hr]
    obtain ⟨c, hc⟩ := selectLoop_some_of_best
      (goodness ((w2, n) :: rest) (((w2, n) :: rest).map Prod.snd).sum) rest
      (w2, goodness ((w2, n) :: rest) (((w2, n) :: rest).map Prod.snd).sum w2)
    refine ⟨c.1, ?_, ?_⟩
    · rw [selectLoop_cons_none, hc]
      rfl
    · rcases selectLoop_mem _ ((w2, n) :: rest) none c
        (by rw [selectLoop_cons_none]; exact hc) with h | h
      · exact h
      · exact Option.noConfusion h

/-- C9 witness: a concrete one-candidate state after one round. -/
theorem vecrem_guess_no_panic_mem_witness :
    ∃ w, vecremGuess [(['a','b','c','d','e'], 1)]
        [⟨['a','b','c','d','e'], List.replicate 5 Correct⟩] =
        some (w, filterRemaining [⟨['a','b','c','d','e'], List.replicate 5 Correct⟩]
          [(['a','b','c','d','e'], 1)]) ∧
      w ∈ (filterRemaining [⟨['a','b','c','d','e'], List.replicate 5 Correct⟩]
          [(['a','b','c','d','e'], 1)]).map Prod.fst :=
  vecrem_guess_no_panic_mem [(['a','b','c','d','e'], 1)]
    [⟨['a','b','c','d','e'], List.replicate 5 Correct⟩]
    (by simp) (by decide)

/-- C5: with a non-empty history and a non-empty filtered remaining set,
`VecRem::guess` returns the candidate from the remaining set whose entropy
score `-Σ p(m)·log2(p(m))` (over the 243 masks, zero-weight buckets
skipped, `p(m) = bucketWeight/totalWeight`) is maximal, and among
equal-score words the one encountered first in scan order (the strict `>`
comparison): every earlier word scores strictly less, every later word
scores no more.  The source's `f64` arithmetic is idealised as reals. -/
theorem vecrem_guess_picks_first_entropy_max (remaining : List (List Char × Nat))
    (history : List Guess) (hne : history ≠ [])
    (hrem : filterRemaining history remaining ≠ []) :
    ∃ w l₁ l₂,
      vecremGuess remaining history =
        some (w, filterRemaining history remaining) ∧
      (filterRemaining history remaining).map Prod.fst = l₁ ++ w :: l₂ ∧
      (∀ v ∈ l₁,
        goodness (filterRemaining history remaining)
            ((filterRemaining history remaining).map Prod.snd).sum v <
          goodness (filterRemaining history remaining)
            ((filterRemaining history remaining).map Prod.snd).sum w) ∧
      (∀ v ∈ l₂,
        goodness (filterRemaining history remaining)
            ((filterRemaining history remaining).map Prod.snd).sum v ≤
          goodness (filterRemaining history remaining)
            ((filterRemaining history remaining).map Prod.snd).sum w) := by
  cases hr : filterRemaining history remaining with
  | nil => exact absurd hr hrem
  | cons p rest =>
    obtain ⟨w2, n⟩ := p
    rw [vecremGuess_of_ne_nil remaining history hne, hr]
    obtain ⟨w, l₁, l₂, hsel, hdec, hlt, hle⟩ :=
      selectLoop_first_max
        (goodness ((w2, n) :: rest) (((w2, n) :: rest).map Prod.snd).sum) rest w2
    refine ⟨w, l₁, l₂, ?_, ?_, hlt, hle⟩
    · rw [selectLoop_cons_none, hsel]
      rfl
    · simpa using hdec

/-- C5 witness: the concrete one-candidate state. -/
theorem vecrem_guess_picks_first_entropy_max_witness :
    ∃ w l₁ l₂,
      vecremGuess [(['a','b','c','d','e'], 1)]
          [⟨['a','b','c','d','e'], List.replicate 5 Correct⟩] =
        some (w, filterRemaining [⟨['a','b','c','d','e'], List.replicate 5 Correct⟩]
          [(['a','b','c','d','e'], 1)]) ∧
      (filterRemaining [⟨['a','b','c','d','e'], List.replicate 5 Correct⟩]
          [(['a','b','c','d','e'], 1)]).map Prod.fst = l₁ ++ w :: l₂ ∧
      (∀ v ∈ l₁,
        goodness (filterRemaining [⟨['a','b','c','d','e'], List.replicate 5 Correct⟩]
            [(['a','b','c','d','e'], 1)])
            ((filterRemaining [⟨['a','b','c','d','e'], List.replicate 5 Correct⟩]
              [(['a','b','c','d','e'], 1)]).map Prod.snd).sum v <
          goodness (filterRemaining [⟨['a','b','c','d','e'], List.replicate 5 Correct⟩]
            [(['a','b','c','d','e'], 1)])
            ((filterRemaining [⟨['a','b','c','d','e'], List.replicate 5 Correct⟩]
              [(['a','b','c','d','e'], 1)]).map Prod.snd).sum w) ∧
      (∀ v ∈ l₂,
        goodness (filterRemaining [⟨['a','b','c','d','e'], List.replicate 5 Correct⟩]
            [(['a','b','c','d','e'], 1)])
            ((filterRemaining [⟨['a','b','c','d','e'], List.replicate 5 Correct⟩]
              [(['a','b','c','d','e'], 1)]).map Prod.snd).sum v ≤
          goodness (filterRemaining [⟨['a','b','c','d','e'], List.replicate 5 Correct⟩]
            [(['a','b','c','d','e'], 1)])
            ((filterRemaining [⟨['a','b','c','d','e'], List.replicate 5 Correct⟩]
              [(['a','b','c','d','e'], 1)]).map Prod.snd).sum w) :=
  vecrem_guess_picks_first_entropy_max [(['a','b','c','d','e'], 1)]
    [⟨['a','b','c','d','e'], List.replicate 5 Correct⟩]
    (by simp) (by decide)

/-! ## Positional and counting invariants of `compute` -/

lemma pass2_length : ∀ (l : List (Char × Correctness)) (ans : List Char)
    (used : List Bool), (pass2 l ans used).length = l.length := by
  intro l
  induction l with
  | nil => intro ans used; rfl
  | cons p rest ih =>
    intro ans used
    obtain ⟨g, c⟩ := p
    by_cases hc : c = Correct
    · simp [pass2, hc, ih]
    · cases hcons : consume g ans used with
      | some used2 => simp [pass2, hc, hcons, ih]
      | none => simp [pass2, hc, hcons, ih]

lemma pass2_getD_correct : ∀ (l : List (Char × Correctness)) (ans : List Char)
    (used : List Bool) (i : Nat), i < l.length →
    ((pass2 l ans used).getD i Wrong = Correct ↔
      (l.getD i (' ', Wrong)).2 = Correct) := by
  intro l
  induction l with
  | nil => intro ans used i h; simp at h
  | cons p rest ih =>
    intro ans used i h
    obtain ⟨g, c⟩ := p
    by_cases hc : c = Correct
    · cases i with
      | zero => simp [pass2, hc]
      | succ n =>
        simpa [pass2, hc, List.getD_cons_succ] using
          ih ans used n (by simpa using h)
    · cases hcons : consume g ans used with
      | some used2 =>
        cases i with
        | zero => simp [pass2, hc, hcons]
        | succ n =>
          simpa [pass2, hc, hcons, List.getD_cons_succ] using
            ih ans used2 n (by simpa using h)
      | none =>
        cases i with
        | zero => simp [pass2, hc, hcons]
        | succ n =>
          simpa [pass2, hc, hcons, List.getD_cons_succ] using
            ih ans used n (by simpa using h)

lemma consume_count : ∀ (ans : List Char) (used used2 : List Bool) (g : Char),
    consume g ans used = some used2 → ∀ ℓ,
    countUnused ans used ℓ = countUnused ans used2 ℓ +
      (if g = ℓ then 1 else 0) := by
  intro ans
  induction ans with
  | nil => intro used used2 g h; exact Option.noConfusion h
  | cons a restA ih =>
    intro used used2 g h ℓ
    cases used with
    | nil => exact Option.noConfusion h
    | cons u restU =>
      by_cases hcond : a = g ∧ u = false
      · have h2 : used2 = true :: restU := by
          rw [consume, if_pos hcond] at h
          injection h with h3
          exact h3.symm
        subst h2
        obtain ⟨hag, hu⟩ := hcond
        subst hag
        subst hu
        simp only [countUnused, List.zip_cons_cons, List.countP_cons]
        by_cases hal : a = ℓ <;> simp [hal]
      · rw [consume, if_neg hcond] at h
        rcases Option.map_eq_some'.mp h with ⟨us2, hus2, hmap⟩
        subst hmap
        have hrec := ih restU us2 g hus2 ℓ
        simp only [countUnused, List.zip_cons_cons, List.countP_cons] at hrec ⊢
        by_cases hcnd : a = ℓ ∧ u = false <;> by_cases hgl : g = ℓ <;>
          simp [hcnd, hgl] at hrec ⊢ <;> omega

lemma pass2_countCM : ∀ (l : List (Char × Correctness)) (ans : List Char)
    (used : List Bool) (ℓ : Char),
    ((l.map Prod.fst).zip (pass2 l ans used)).countP
        (fun p => decide (p.1 = ℓ ∧ (p.2 = Correct ∨ p.2 = Misplaced)))
      ≤ l.countP (fun p => decide (p.1 = ℓ ∧ p.2 = Correct)) +
        countUnused ans used ℓ := by
  intro l
  induction l with
  | nil => intro ans used ℓ; simp [pass2]
  | cons p rest ih =>
    intro ans used ℓ
    obtain ⟨g, c⟩ := p
    by_cases hc : c = Correct
    · subst hc
      simp only [List.map_cons, pass2, if_pos rfl, List.zip_cons_cons,
        List.countP_cons]
      have h1 := ih ans used ℓ
      by_cases hgl : g = ℓ <;> simp [hgl] at h1 ⊢ <;> omega
    · cases hcons : consume g ans used with
      | some used2 =>
        simp only [List.map_cons, pass2, if_neg hc, hcons, List.zip_cons_cons,
          List.countP_cons]
        have h1 := ih ans used2 ℓ
        have h2 := consume_count ans used used2 g hcons ℓ
        by_cases hgl : g = ℓ <;> simp [hgl, hc] at h1 h2 ⊢ <;> omega
      | none =>
        simp only [List.map_cons, pass2, if_neg hc, hcons, List.zip_cons_cons,
          List.countP_cons]
        have h1 := ih ans used ℓ
        by_cases hgl : g = ℓ <;> simp [hgl, hc] at h1 ⊢ <;> omega

lemma init_count : ∀ (a g : List Char), a.length = g.length → ∀ ℓ,
    (g.zip (pass1 a g)).countP (fun p => decide (p.1 = ℓ ∧ p.2 = Correct)) +
      countUnused a (used0 (pass1 a g)) ℓ = a.count ℓ := by
  intro a
  induction a with
  | nil =>
    intro g hlen ℓ
    have hg : g = [] := List.length_eq_zero.mp hlen.symm
    subst hg
    simp [pass1, used0, countUnused]
  | cons x restA ih =>
    intro g hlen ℓ
    cases g with
    | nil => simp at hlen
    | cons y restG =>
      have hlen2 : restA.length = restG.length := by simpa using hlen
      have hrec := ih restG hlen2 ℓ
      by_cases hxy : x = y
      · subst hxy
        simp only [pass1, List.zipWith_cons_cons, if_pos rfl, used0,
          List.map_cons, List.zip_cons_cons, List.countP_cons, countUnused,
          List.count_cons] at hrec ⊢
        by_cases hxl : x = ℓ <;>
          simp [hxl, pass1, used0, countUnused] at hrec ⊢ <;> omega
      · simp only [pass1, List.zipWith_cons_cons, if_neg hxy, used0,
          List.map_cons, List.zip_cons_cons, List.countP_cons, countUnused,
          List.count_cons] at hrec ⊢
        by_cases hxl : x = ℓ <;> by_cases hyl : y = ℓ <;>
          simp [hxl, hyl, pass1, used0, countUnused] at hrec ⊢ <;> omega

lemma countCM_compute_le (a g : List Char) (hlen : a.length = g.length)
    (ℓ : Char) : countCM g (compute a g) ℓ ≤ a.count ℓ := by
  have hmf : (g.zip (pass1 a g)).map Prod.fst = g := by
    apply List.map_fst_zip
    simp [pass1, hlen]
  have h1 := pass2_countCM (g.zip (pass1 a g)) a (used0 (pass1 a g)) ℓ
  rw [hmf] at h1
  have h2 := init_count a g hlen ℓ
  have h0 : countCM g (compute a g) ℓ =
      (g.zip (pass2 (g.zip (pass1 a g)) a (used0 (pass1 a g)))).countP
        (fun p => decide (p.1 = ℓ ∧ (p.2 = Correct ∨ p.2 = Misplaced))) := rfl
  rw [h0]
  exact h1.trans h2.le

/-- C10: over all pairs of 5-letter words, `Correctness::compute` marks
position `i` `Correct` exactly when `answer[i] = guess[i]`, and for every
letter the number of guess positions holding that letter marked `Correct`
or `Misplaced` never exceeds the letter's occurrence count in the answer
(each answer position is consumed at most once). -/
theorem compute_positions_and_letter_budget (answer guess : List Char)
    (h5a : answer.length = 5) (h5g : guess.length = 5) :
    (∀ i, i < 5 → ((compute answer guess).getD i Wrong = Correct ↔
        answer.getD i 'a' = guess.getD i 'a')) ∧
    ∀ ℓ : Char, countCM guess (compute answer guess) ℓ ≤ answer.count ℓ := by
  constructor
  · intro i hi
    have hc5 : (pass1 answer guess).length = 5 := by
      simp [pass1, h5a, h5g]
    have hz5 : (guess.zip (pass1 answer guess)).length = 5 := by
      simp [List.length_zip, h5g, hc5]
    have hig : i < guess.length := by omega
    have hia : i < answer.length := by omega
    have hic : i < (pass1 answer guess).length := by omega
    have hiz : i < (guess.zip (pass1 answer guess)).length := by omega
    have h0 : (compute answer guess).getD i Wrong =
        (pass2 (guess.zip (pass1 answer guess)) answer
          (used0 (pass1 answer guess))).getD i Wrong := rfl
    rw [h0, pass2_getD_correct _ _ _ i hiz]
    rw [List.getD_eq_getElem _ _ hiz, List.getElem_zip]
    have h1 : (pass1 answer guess)[i] =
        if answer[i] = guess[i] then Correct else Wrong := by
      simp [pass1, List.getElem_zipWith]
    rw [List.getD_eq_getElem _ _ hia, List.getD_eq_getElem _ _ hig]
    by_cases hag : answer[i] = guess[i] <;> simp [h1, hag]
  · intro ℓ
    exact countCM_compute_le answer guess (by omega) ℓ

/-- C10 witness: the concrete pair answer "aabbb", guess "aaccc" at
position 0 and letter `a`. -/
theorem compute_positions_and_letter_budget_witness :
    ((compute ['a','a','b','b','b'] ['a','a','c','c','c']).getD 0 Wrong = Correct ↔
      (['a','a','b','b','b'] : List Char).getD 0 'a' =
        (['a','a','c','c','c'] : List Char).getD 0 'a') ∧
    countCM ['a','a','c','c','c'] (compute ['a','a','b','b','b'] ['a','a','c','c','c']) 'a' ≤
      (['a','a','b','b','b'] : List Char).count 'a' :=
  ⟨(compute_positions_and_letter_budget ['a','a','b','b','b'] ['a','a','c','c','c']
      (by decide) (by decide)).1 0 (by decide),
   (compute_positions_and_letter_budget ['a','a','b','b','b'] ['a','a','c','c','c']
      (by decide) (by decide)).2 'a'⟩
